import Mathlib

/-!
# anansi: changelog generation from a git history

A shallow embedding of `main.go`.  Go strings are modelled as lists of
characters (`Str`), commit hashes as natural numbers, the go-git commit
iterator as the finite list of commits it yields followed by the way it
ends, the reference store as the map from the names of its hash references
to their hashes, and standard output as the list of the texts printed so
far, one for each call of `fmt.Printf`.

The only characters the program tells apart (the line break, the slash, the
digits and the letters of the pattern) are ASCII, so that reading a string
character by character or byte by byte gives the same cuts.

The regular expression of `main` is embedded as a syntax tree together with
a list-of-successes backtracking matcher: the list of matches at a position
is ordered by the preference of a backtracking engine, which is the match
order Go's `regexp` package documents for patterns compiled in Perl mode.
-/

namespace Anansi

/-- Go strings, as sequences of characters. -/
abbrev Str := List Char

namespace plumbing

/-- The type `plumbing.Hash`: an identifier of a commit. -/
abbrev Hash := Nat

/-- The type `plumbing.ReferenceName`: the full name of a reference. -/
abbrev ReferenceName := Str

/-- The function `plumbing.NewBranchReferenceName`. -/
def NewBranchReferenceName (name : Str) : ReferenceName :=
  "refs/heads/".toList ++ name

/-- The function `plumbing.NewRemoteReferenceName`. -/
def NewRemoteReferenceName (remote name : Str) : ReferenceName :=
  "refs/remotes/".toList ++ remote ++ "/".toList ++ name

end plumbing

namespace object

/-- The fields of `object.Commit` that `main` reads. -/
structure Commit where
  Hash : plumbing.Hash
  Message : Str
  ParentHashes : List plumbing.Hash
  deriving DecidableEq, Repr

end object

/-! ## Regular expressions -/

/-- The regular expression constructs used by the pattern of `main`. -/
inductive Regexp where
  /-- Literal text. -/
  | lit (s : Str)
  /-- One or more characters of a class, greedy: `[...]+`, `\d+`, `.+`. -/
  | plus (cls : Char → Bool)
  /-- A capturing group `( ... )`. -/
  | group (r : Regexp)
  /-- Concatenation. -/
  | cat (r₁ r₂ : Regexp)

/-- One way of matching at a position: the text matched, the texts of the
capturing groups in order, and the rest of the input. -/
structure Match where
  text : Str
  groups : List Str
  rest : Str
  deriving DecidableEq, Repr

/-- The class `\d` of Go regular expressions: the ASCII digits. -/
def isDigit (c : Char) : Bool := decide ('0' ≤ c) && decide (c ≤ '9')

/-- The class `[^/]`: any character but the slash, the line break included. -/
def notSlash (c : Char) : Bool := decide (c ≠ '/')

/-- The class `.`: any character but the line break. -/
def anyChar (c : Char) : Bool := decide (c ≠ '\n')

/-- Strip a literal off the front of the input. -/
def stripLit : Str → Str → Option Str
  | [], s => some s
  | _ :: _, [] => none
  | a :: l, c :: s => if a = c then stripLit l s else none

/-- The matches of `cls+` at the front of the input, the longest first. -/
def plusMatches (cls : Char → Bool) : Str → List (Str × Str)
  | [] => []
  | c :: s =>
    if cls c then
      (plusMatches cls s).map (fun m => (c :: m.1, m.2)) ++ [([c], s)]
    else []

/-- All matches of a regular expression at the front of the input, in the
order in which a backtracking engine finds them. -/
def Regexp.matchesAt : Regexp → Str → List Match
  | .lit l, s =>
    match stripLit l s with
    | some rest => [⟨l, [], rest⟩]
    | none => []
  | .plus cls, s => (plusMatches cls s).map (fun m => ⟨m.1, [], m.2⟩)
  | .group r, s => (r.matchesAt s).map (fun m => ⟨m.text, m.text :: m.groups, m.rest⟩)
  | .cat r₁ r₂, s =>
    (r₁.matchesAt s).flatMap (fun m₁ =>
      (r₂.matchesAt m₁.rest).map (fun m₂ =>
        ⟨m₁.text ++ m₂.text, m₁.groups ++ m₂.groups, m₂.rest⟩))

/-- The method `FindStringSubmatch`: the leftmost match, searched from every
position of the input in turn; the result is the text of the match followed
by the texts of its groups, and `none` stands for the nil slice. -/
def Regexp.FindStringSubmatch (re : Regexp) : Str → Option (List Str)
  | [] =>
    match re.matchesAt [] with
    | m :: _ => some (m.text :: m.groups)
    | [] => none
  | c :: s =>
    match re.matchesAt (c :: s) with
    | m :: _ => some (m.text :: m.groups)
    | [] => re.FindStringSubmatch s

/-- The pattern of `main`:
`Merge pull request #(\d+) from [^/]+/([^/]+)/(.+)`. -/
def pattern : Regexp :=
  .cat (.lit "Merge pull request #".toList)
    (.cat (.group (.plus isDigit))
      (.cat (.lit " from ".toList)
        (.cat (.plus notSlash)
          (.cat (.lit "/".toList)
            (.cat (.group (.plus notSlash))
              (.cat (.lit "/".toList)
                (.group (.plus anyChar))))))))

/-! ## The body of the commit loop -/

/-- The function `strings.IndexByte`: the index of the first occurrence of
the character, or `-1`. -/
def IndexByte : Str → Char → Int
  | [], _ => -1
  | a :: s, c =>
    if a = c then 0
    else
      let i := IndexByte s c
      if i < 0 then -1 else i + 1

/-- The subject computed by the loop body from a commit message
(`msg` after the truncation at `firstNewLine`). -/
def subject (Message : Str) : Str :=
  let msg := Message
  let firstNewLine := IndexByte msg '\n'
  if firstNewLine > 0 then msg.take firstNewLine.toNat else msg

/-- A changelog record. -/
inductive ChangeRecord where
  | DirectChange (subject : Str)
  | NamedChange (kind description requestNumber : Str)
  deriving DecidableEq, Repr

/-- The line printed for a record: `+ <subject>` by the format `"+ %s\n"`,
and `<kind> <description> (#<requestNumber>)` by `"%s %s (#%s)\n"`. -/
def ChangeRecord.render : ChangeRecord → Str
  | .DirectChange s => "+ ".toList ++ s ++ "\n".toList
  | .NamedChange k d n => k ++ " ".toList ++ d ++ " (#".toList ++ n ++ ")\n".toList

/-- The classification made by the loop body once the subject is known: the
record printed for a commit with `parents` parent hashes and subject `msg`,
or `none` when nothing is printed. -/
def classify (parents : Nat) (msg : Str) : Option ChangeRecord :=
  if parents > 1 then
    match pattern.FindStringSubmatch msg with
    | some [_, prNumber, branchType, description] =>
      some (.NamedChange branchType description prNumber)
    | _ => none
  else
    some (.DirectChange msg)

/-- The classification of a commit: subject extraction, then `classify`. -/
def classifyCommit (c : object.Commit) : Option ChangeRecord :=
  classify c.ParentHashes.length (subject c.Message)

/-! ## The commit loops of `main` -/

/-- How a commit iterator ends: with `io.EOF` after the last commit, or with
an error of the repository. -/
inductive IterEnd where
  | EOF
  | failure (err : Str)
  deriving DecidableEq, Repr

/-- A go-git commit iterator: the commits it yields, in order, and how it
ends. -/
structure CommitIter where
  commits : List object.Commit
  ending : IterEnd
  deriving DecidableEq, Repr

/-- The method `ForEach` of a commit iterator, for a callback that always
returns nil: the callback runs on every commit yielded, and the error of the
iterator, if it ends with one, is returned. -/
def ForEach {σ : Type} (cb : σ → object.Commit → σ) : List object.Commit → IterEnd → σ → σ × Option Str
  | [], .EOF, st => (st, none)
  | [], .failure err, st => (st, some err)
  | c :: cs, e, st => ForEach cb cs e (cb st c)

/-- The map `productionCommits`, of type `map[plumbing.Hash]bool`. -/
abbrev HashMap := plumbing.Hash → Option Bool

/-- The empty map, `make(map[plumbing.Hash]bool)`. -/
def HashMap.make : HashMap := fun _ => none

/-- The assignment `m[k] = v`. -/
def HashMap.set (m : HashMap) (k : plumbing.Hash) (v : Bool) : HashMap :=
  fun h => if h = k then some v else m h

/-- The second result of `_, found := m[k]`. -/
def HashMap.found (m : HashMap) (k : plumbing.Hash) : Bool := (m k).isSome

/-- The callback of the loop over the production commits. -/
def recordProduction (productionCommits : HashMap) (c : object.Commit) : HashMap :=
  productionCommits.set c.Hash true

/-- The callback of the loop over the main commits; `stdout` is the list of
the lines printed so far. -/
def printChange (productionCommits : HashMap) (stdout : List Str) (c : object.Commit) : List Str :=
  if productionCommits.found c.Hash then stdout
  else
    match classifyCommit c with
    | some record => stdout ++ [record.render]
    | none => stdout

/-- How the process ends: normally, or in `log.Fatalf` with a message. -/
inductive Exit where
  | ok
  | fatal (msg : Str)
  deriving DecidableEq, Repr

/-- What a run leaves behind: the lines printed and the way it ended. -/
structure Run where
  stdout : List Str
  exit : Exit
  deriving DecidableEq, Repr

/-- The part of `main` after the references are resolved: `prodLog` and
`mainLog` are the results of the two calls of `r.Log`. -/
def generateChangelog (prodLog mainLog : Except Str CommitIter) : Run :=
  match prodLog with
  | .error err => ⟨[], .fatal ("Failed to get production branch commits: ".toList ++ err)⟩
  | .ok productionCommitIter =>
    match ForEach recordProduction productionCommitIter.commits productionCommitIter.ending
        HashMap.make with
    | (_, some err) =>
      ⟨[], .fatal ("Failed to iterate through production commits: ".toList ++ err)⟩
    | (productionCommits, none) =>
      match mainLog with
      | .error err => ⟨[], .fatal ("failed to get commits: ".toList ++ err)⟩
      | .ok mainCommitIter =>
        match ForEach (printChange productionCommits) mainCommitIter.commits
            mainCommitIter.ending [] with
        | (stdout, some err) => ⟨stdout, .fatal ("failed to iterate commits: ".toList ++ err)⟩
        | (stdout, none) => ⟨stdout, .ok⟩

/-! ## Reference resolution -/

namespace plumbing

/-- A hash reference, as made by `plumbing.NewHashReference`. -/
structure Reference where
  Name : ReferenceName
  Hash : Hash
  deriving DecidableEq, Repr

/-- The function `plumbing.NewHashReference`. -/
def NewHashReference (n : ReferenceName) (h : Hash) : Reference := ⟨n, h⟩

end plumbing

/-- The reference store of a repository: the hash each stored reference
name points to. -/
abbrev Storer := plumbing.ReferenceName → Option plumbing.Hash

/-- The method `r.Reference(name, true)`: the stored reference, or the error
`reference not found`. -/
def Storer.Reference (r : Storer) (name : plumbing.ReferenceName) : Except Str plumbing.Reference :=
  match r name with
  | some h => .ok ⟨name, h⟩
  | none => .error "reference not found".toList

/-- The method `r.Storer.SetReference`. -/
def Storer.SetReference (r : Storer) (ref : plumbing.Reference) : Storer :=
  fun n => if n = ref.Name then some ref.Hash else r n

/-- The function `getRef`: the reference returned together with the store
it leaves, or the message of `log.Fatalf`. -/
def getRef (r : Storer) (name : Str) : Except Str (plumbing.Reference × Storer) :=
  let mainRefName := plumbing.NewBranchReferenceName name
  let fallback : Except Str Storer :=
    match r.Reference mainRefName with
    | .ok _ => .ok r
    | .error _ =>
      let mainRemoteRefName := plumbing.NewRemoteReferenceName "origin".toList name
      match r.Reference mainRemoteRefName with
      | .error err => .error ("failed to get main remote branch reference: ".toList ++ err)
      | .ok mainRemoteRef =>
        let mainRef := plumbing.NewHashReference mainRefName mainRemoteRef.Hash
        .ok (r.SetReference mainRef)
  match fallback with
  | .error msg => .error msg
  | .ok r =>
    match r.Reference (plumbing.NewBranchReferenceName name) with
    | .error err => .error ("failed to get main branch reference: ".toList ++ err)
    | .ok mainRef => .ok (mainRef, r)

/-- A cloned repository: its reference store and its two ways of listing
history, `r.Log` in the default order and in the order `LogOrderDFSPost`. -/
structure Repository where
  Storer : Storer
  Log : plumbing.Hash → Except Str CommitIter
  LogDFSPost : plumbing.Hash → Except Str CommitIter

/-- The function `main`, from the resolution of the two references on. -/
def main (r : Repository) : Run :=
  match getRef r.Storer "release/something_fishy".toList with
  | .error msg => ⟨[], .fatal msg⟩
  | .ok (mainRef, storer) =>
    match getRef storer "production".toList with
    | .error msg => ⟨[], .fatal msg⟩
    | .ok (prodRef, _) => generateChangelog (r.Log prodRef.Hash) (r.LogDFSPost mainRef.Hash)

/-! ## The grammar of the specification -/

/-- The text that opens a merge subject. -/
def mergePrefix : Str := "Merge pull request #".toList

/-- The subject `Merge pull request #<n> from <o>/<k>/<d>`. -/
def mergeSubject (n o k d : Str) : Str :=
  mergePrefix ++ n ++ " from ".toList ++ o ++ "/".toList ++ k ++ "/".toList ++ d

/-- The grammar as the specification words it: somewhere in the subject
stands `Merge pull request #<requestNumber> from <anything-without-slash>/<kind>/<description>`,
the request number being one or more digits, the owner and the kind one or
more characters other than the slash, and the description the non-empty
remainder, of any characters. -/
def MatchesGrammar (s : Str) : Prop :=
  ∃ p n o k d : Str,
    n ≠ [] ∧ (∀ c ∈ n, isDigit c = true) ∧
    o ≠ [] ∧ '/' ∉ o ∧ k ≠ [] ∧ '/' ∉ k ∧ d ≠ [] ∧
    s = p ++ mergeSubject n o k d

/-! ## Definitions used by the statements -/

/-- A run of the class cannot start where the input is empty or starts
with a character outside the class. -/
def StopsRun (cls : Char → Bool) (r : Str) : Prop :=
  ∀ c t, r = c :: t → cls c = false

/-- The error an iterator ends with, if any. -/
def IterEnd.error : IterEnd → Option Str
  | .EOF => none
  | .failure err => some err

/-- The records of the commits of a walk that are not in the production
map, in the order of the walk. -/
def records (productionCommits : HashMap) (walk : List object.Commit) : List ChangeRecord :=
  (walk.filter (fun c => !productionCommits.found c.Hash)).filterMap classifyCommit

/-- The store with the local branch `production` at commit `1` and the
remote-tracking branch `origin/production` at commit `2`. -/
def storeBoth : Storer := fun n =>
  if n = "refs/heads/production".toList then some 1
  else if n = "refs/remotes/origin/production".toList then some 2
  else none

/-- The store with only the remote-tracking branch `origin/production`, at
commit `2`. -/
def storeRemote : Storer := fun n =>
  if n = "refs/remotes/origin/production".toList then some 2 else none

/-! ## Lemmas on the matcher -/

theorem stripLit_eq_some_iff (l s r : Str) : stripLit l s = some r ↔ s = l ++ r := by
  induction l generalizing s with
  | nil => simp [stripLit, eq_comm]
  | cons a l ih =>
    cases s with
    | nil => simp [stripLit]
    | cons c s =>
      by_cases h : a = c
      · subst h; simp [stripLit, ih]
      · simp [stripLit, h, Ne.symm h]

theorem stripLit_append (l r : Str) : stripLit l (l ++ r) = some r :=
  (stripLit_eq_some_iff l (l ++ r) r).2 rfl

theorem mem_plusMatches (cls : Char → Bool) (s m r : Str) :
    (m, r) ∈ plusMatches cls s ↔ m ≠ [] ∧ (∀ c ∈ m, cls c = true) ∧ s = m ++ r := by
  induction s generalizing m with
  | nil =>
    simp only [plusMatches, List.not_mem_nil, false_iff, not_and]
    intro hne _ heq
    exact hne (List.append_eq_nil.1 heq.symm).1
  | cons a s ih =>
    by_cases ha : cls a = true
    · simp only [plusMatches, ha, if_true, List.mem_append, List.mem_map, List.mem_singleton,
        Prod.mk.injEq, Prod.exists]
      constructor
      · rintro (⟨m', r', hm, rfl, rfl⟩ | ⟨rfl, rfl⟩)
        · obtain ⟨_, h2, h3⟩ := (ih m').1 hm
          refine ⟨by simp, ?_, by simp [h3]⟩
          intro c hc
          rcases List.mem_cons.1 hc with rfl | hc
          · exact ha
          · exact h2 c hc
        · exact ⟨by simp, by simpa using ha, by simp⟩
      · rintro ⟨hne, hall, heq⟩
        cases m with
        | nil => exact absurd rfl hne
        | cons b m' =>
          simp only [List.cons_append, List.cons.injEq] at heq
          obtain ⟨rfl, rfl⟩ := heq
          by_cases hm' : m' = []
          · subst hm'; right; simp
          · left
            refine ⟨m', r, (ih m').2 ⟨hm', fun c hc => hall c (List.mem_cons_of_mem _ hc), rfl⟩, rfl, rfl⟩
    · rw [plusMatches, if_neg ha]
      simp only [List.not_mem_nil, false_iff, not_and]
      intro hne hall heq
      cases m with
      | nil => exact hne rfl
      | cons b m' =>
        simp only [List.cons_append, List.cons.injEq] at heq
        exact ha (heq.1 ▸ hall b (List.mem_cons_self _ _))

theorem plusMatches_eq_nil (cls : Char → Bool) (r : Str) (hr : StopsRun cls r) :
    plusMatches cls r = [] := by
  cases r with
  | nil => rfl
  | cons c t => simp [plusMatches, hr c t rfl]

theorem plusMatches_flatMap {β : Type} (cls : Char → Bool) (m r : Str) (hm : m ≠ [])
    (hall : ∀ c ∈ m, cls c = true) (hr : StopsRun cls r) (f : Str × Str → List β)
    (hf : ∀ x c t, cls c = true → f (x, c :: t) = []) :
    (plusMatches cls (m ++ r)).flatMap f = f (m, r) := by
  induction m generalizing f with
  | nil => exact absurd rfl hm
  | cons a m ih =>
    have ha : cls a = true := hall a (List.mem_cons_self _ _)
    cases m with
    | nil =>
      simp [plusMatches, ha, plusMatches_eq_nil cls r hr]
    | cons b m' =>
      have hb : cls b = true := hall b (by simp)
      have ih' := ih (by simp) (fun c hc => hall c (List.mem_cons_of_mem _ hc))
        (fun x => f (a :: x.1, x.2)) (fun x c t hc => hf (a :: x) c t hc)
      rw [List.cons_append, plusMatches, if_pos ha, List.flatMap_append, List.flatMap_map]
      simp only [List.flatMap_singleton]
      rw [List.cons_append, hf [a] b (m' ++ r) hb, List.append_nil]
      exact ih'

theorem plusMatches_head (cls : Char → Bool) (m r : Str) (hm : m ≠ [])
    (hall : ∀ c ∈ m, cls c = true) (hr : StopsRun cls r) :
    ∃ tl, plusMatches cls (m ++ r) = (m, r) :: tl := by
  induction m with
  | nil => exact absurd rfl hm
  | cons a m ih =>
    have ha : cls a = true := hall a (List.mem_cons_self _ _)
    cases m with
    | nil =>
      exact ⟨[], by simp [plusMatches, ha, plusMatches_eq_nil cls r hr]⟩
    | cons b m' =>
      obtain ⟨tl, htl⟩ := ih (by simp) (fun c hc => hall c (List.mem_cons_of_mem _ hc))
      refine ⟨tl.map (fun x => (a :: x.1, x.2)) ++ [([a], b :: m' ++ r)], ?_⟩
      rw [List.cons_append, plusMatches, if_pos ha, htl]
      simp

theorem matchesAt_cat_lit (l : Str) (R : Regexp) (s : Str) :
    (Regexp.cat (.lit l) R).matchesAt (l ++ s) =
      (R.matchesAt s).map (fun m₂ => ⟨l ++ m₂.text, m₂.groups, m₂.rest⟩) := by
  simp [Regexp.matchesAt, stripLit_append]

theorem matchesAt_cat_lit_eq_nil (l : Str) (R : Regexp) (s : Str) (h : stripLit l s = none) :
    (Regexp.cat (.lit l) R).matchesAt s = [] := by
  simp [Regexp.matchesAt, h]

theorem matchesAt_cat_plus (cls : Char → Bool) (R : Regexp) (m r : Str) (hm : m ≠ [])
    (hall : ∀ c ∈ m, cls c = true) (hr : StopsRun cls r)
    (hR : ∀ c t, cls c = true → R.matchesAt (c :: t) = []) :
    (Regexp.cat (.plus cls) R).matchesAt (m ++ r) =
      (R.matchesAt r).map (fun m₂ => ⟨m ++ m₂.text, m₂.groups, m₂.rest⟩) := by
  simp only [Regexp.matchesAt, List.flatMap_map]
  rw [plusMatches_flatMap cls m r hm hall hr]
  · simp
  · intro x c t hc
    simp [hR c t hc]

theorem matchesAt_cat_group_plus (cls : Char → Bool) (R : Regexp) (m r : Str) (hm : m ≠ [])
    (hall : ∀ c ∈ m, cls c = true) (hr : StopsRun cls r)
    (hR : ∀ c t, cls c = true → R.matchesAt (c :: t) = []) :
    (Regexp.cat (.group (.plus cls)) R).matchesAt (m ++ r) =
      (R.matchesAt r).map (fun m₂ => ⟨m ++ m₂.text, m :: m₂.groups, m₂.rest⟩) := by
  simp only [Regexp.matchesAt, List.flatMap_map, List.map_map]
  rw [plusMatches_flatMap cls m r hm hall hr]
  · simp
  · intro x c t hc
    simp [hR c t hc]

theorem matchesAt_group_plus_head (cls : Char → Bool) (m r : Str) (hm : m ≠ [])
    (hall : ∀ c ∈ m, cls c = true) (hr : StopsRun cls r) :
    ∃ tl, (Regexp.group (.plus cls)).matchesAt (m ++ r) = ⟨m, [m], r⟩ :: tl := by
  obtain ⟨tl, htl⟩ := plusMatches_head cls m r hm hall hr
  refine ⟨tl.map (fun x => ⟨x.1, [x.1], x.2⟩), ?_⟩
  simp [Regexp.matchesAt, htl]

theorem matchesAt_cat_lit_cons_ne (a c : Char) (l : Str) (R : Regexp) (t : Str) (h : a ≠ c) :
    (Regexp.cat (.lit (a :: l)) R).matchesAt (c :: t) = [] :=
  matchesAt_cat_lit_eq_nil _ _ _ (by simp [stripLit, h])

theorem stopsRun_nil (cls : Char → Bool) : StopsRun cls [] := by
  intro c t h; cases h

theorem stopsRun_cons (cls : Char → Bool) (a : Char) (r : Str) (h : cls a = false) :
    StopsRun cls (a :: r) := by
  intro c t hc
  cases hc
  exact h

theorem pattern_matchesAt (n o k d rest : Str)
    (hn : n ≠ []) (hnd : ∀ c ∈ n, isDigit c = true)
    (ho : o ≠ []) (hos : ∀ c ∈ o, notSlash c = true)
    (hk : k ≠ []) (hks : ∀ c ∈ k, notSlash c = true)
    (hd : d ≠ []) (hdl : ∀ c ∈ d, anyChar c = true) (hrest : StopsRun anyChar rest) :
    ∃ tl, pattern.matchesAt (mergeSubject n o k d ++ rest) =
      ⟨mergeSubject n o k d, [n, k, d], rest⟩ :: tl := by
  obtain ⟨tl, htl⟩ := matchesAt_group_plus_head anyChar d rest hd hdl hrest
  refine ⟨tl.map (fun m => ⟨mergeSubject n o k m.text, n :: k :: m.groups, m.rest⟩), ?_⟩
  have e : mergeSubject n o k d ++ rest =
      "Merge pull request #".toList ++ (n ++ (" from ".toList ++
        (o ++ ("/".toList ++ (k ++ ("/".toList ++ (d ++ rest))))))) := by
    simp only [mergeSubject, mergePrefix, List.append_assoc]
  have hfrom : ∀ (R : Regexp) (c : Char) (t : Str), isDigit c = true →
      (Regexp.cat (.lit " from ".toList) R).matchesAt (c :: t) = [] := fun R c t hc =>
    matchesAt_cat_lit_cons_ne ' ' c "from ".toList R t (by rintro rfl; revert hc; decide)
  have hslash : ∀ (R : Regexp) (c : Char) (t : Str), notSlash c = true →
      (Regexp.cat (.lit "/".toList) R).matchesAt (c :: t) = [] := fun R c t hc =>
    matchesAt_cat_lit_cons_ne '/' c [] R t (by rintro rfl; revert hc; decide)
  have sfrom : ∀ r : Str, StopsRun isDigit (" from ".toList ++ r) := fun r =>
    stopsRun_cons _ ' ' _ (by decide)
  have sslash : ∀ r : Str, StopsRun notSlash ("/".toList ++ r) := fun r =>
    stopsRun_cons _ '/' _ (by decide)
  rw [e, pattern, matchesAt_cat_lit,
    matchesAt_cat_group_plus isDigit _ n _ hn hnd (sfrom _) (hfrom _),
    matchesAt_cat_lit,
    matchesAt_cat_plus notSlash _ o _ ho hos (sslash _) (hslash _),
    matchesAt_cat_lit,
    matchesAt_cat_group_plus notSlash _ k _ hk hks (sslash _) (hslash _),
    matchesAt_cat_lit, htl]
  simp [mergeSubject, mergePrefix]

theorem mem_matchesAt_lit (l s : Str) (m : Match) :
    m ∈ (Regexp.lit l).matchesAt s ↔ ∃ r, s = l ++ r ∧ m = ⟨l, [], r⟩ := by
  cases h : stripLit l s with
  | none =>
    simp only [Regexp.matchesAt, h, List.not_mem_nil, false_iff, not_exists, not_and]
    intro r hr
    rw [(stripLit_eq_some_iff l s r).2 hr] at h
    cases h
  | some r =>
    have hs := (stripLit_eq_some_iff l s r).1 h
    simp only [Regexp.matchesAt, h, List.mem_singleton]
    constructor
    · rintro rfl; exact ⟨r, hs, rfl⟩
    · rintro ⟨r', hr', rfl⟩
      rw [hs] at hr'
      rw [List.append_cancel_left hr']

theorem mem_matchesAt_plus (cls : Char → Bool) (s : Str) (m : Match) :
    m ∈ (Regexp.plus cls).matchesAt s ↔
      ∃ x r, x ≠ [] ∧ (∀ c ∈ x, cls c = true) ∧ s = x ++ r ∧ m = ⟨x, [], r⟩ := by
  simp only [Regexp.matchesAt, List.mem_map, Prod.exists, mem_plusMatches]
  constructor
  · rintro ⟨x, r, ⟨h1, h2, h3⟩, rfl⟩; exact ⟨x, r, h1, h2, h3, rfl⟩
  · rintro ⟨x, r, h1, h2, h3, rfl⟩; exact ⟨x, r, ⟨h1, h2, h3⟩, rfl⟩

theorem mem_matchesAt_group (R : Regexp) (s : Str) (m : Match) :
    m ∈ (Regexp.group R).matchesAt s ↔
      ∃ m', m' ∈ R.matchesAt s ∧ m = ⟨m'.text, m'.text :: m'.groups, m'.rest⟩ := by
  simp only [Regexp.matchesAt, List.mem_map]
  constructor
  · rintro ⟨m', h, rfl⟩; exact ⟨m', h, rfl⟩
  · rintro ⟨m', h, rfl⟩; exact ⟨m', h, rfl⟩

theorem mem_matchesAt_cat (R₁ R₂ : Regexp) (s : Str) (m : Match) :
    m ∈ (Regexp.cat R₁ R₂).matchesAt s ↔
      ∃ m₁, m₁ ∈ R₁.matchesAt s ∧ ∃ m₂, m₂ ∈ R₂.matchesAt m₁.rest ∧
        m = ⟨m₁.text ++ m₂.text, m₁.groups ++ m₂.groups, m₂.rest⟩ := by
  simp only [Regexp.matchesAt, List.mem_flatMap, List.mem_map]
  constructor
  · rintro ⟨m₁, h₁, m₂, h₂, rfl⟩; exact ⟨m₁, h₁, m₂, h₂, rfl⟩
  · rintro ⟨m₁, h₁, m₂, h₂, rfl⟩; exact ⟨m₁, h₁, m₂, h₂, rfl⟩

/-- Every match of the pattern at a position has the shape of the grammar:
digits, an owner and a kind free of slashes, and a description free of line
breaks, all of them non-empty. -/
theorem mem_pattern_matchesAt (t : Str) (m : Match) (h : m ∈ pattern.matchesAt t) :
    ∃ n o k d : Str,
      n ≠ [] ∧ (∀ c ∈ n, isDigit c = true) ∧
      o ≠ [] ∧ (∀ c ∈ o, notSlash c = true) ∧
      k ≠ [] ∧ (∀ c ∈ k, notSlash c = true) ∧
      d ≠ [] ∧ (∀ c ∈ d, anyChar c = true) ∧
      t = mergeSubject n o k d ++ m.rest ∧
      m.text = mergeSubject n o k d ∧ m.groups = [n, k, d] := by
  simp only [pattern, mem_matchesAt_cat, mem_matchesAt_group, mem_matchesAt_lit,
    mem_matchesAt_plus] at h
  obtain ⟨_, ⟨r1, rfl, rfl⟩, _, ⟨_, ⟨_, ⟨n, r2, hn, hnd, h2, rfl⟩, rfl⟩, _,
    ⟨_, ⟨r3, h3, rfl⟩, _, ⟨_, ⟨o, r4, ho, hos, h4, rfl⟩, _, ⟨_, ⟨r5, h5, rfl⟩, _,
    ⟨_, ⟨_, ⟨k, r6, hk, hks, h6, rfl⟩, rfl⟩, _, ⟨_, ⟨r7, h7, rfl⟩, _,
    ⟨_, ⟨d, r8, hd, hdl, h8, rfl⟩, rfl⟩, rfl⟩, rfl⟩, rfl⟩, rfl⟩, rfl⟩, rfl⟩, rfl⟩ := h
  refine ⟨n, o, k, d, hn, hnd, ho, hos, hk, hks, hd, hdl, ?_, ?_, ?_⟩
  · simp only at h2 h3 h4 h5 h6 h7 h8 ⊢
    subst h8 h7 h6 h5 h4 h3 h2
    simp [mergeSubject, mergePrefix]
  · simp [mergeSubject, mergePrefix]
  · simp

/-! ## Lemmas on the leftmost search -/

theorem find_of_matchesAt (re : Regexp) (s : Str) (m : Match) (tl : List Match)
    (h : re.matchesAt s = m :: tl) : re.FindStringSubmatch s = some (m.text :: m.groups) := by
  cases s with
  | nil => simp [Regexp.FindStringSubmatch, h]
  | cons c s => simp [Regexp.FindStringSubmatch, h]

theorem find_skip (re : Regexp) (c : Char) (s : Str) (h : re.matchesAt (c :: s) = []) :
    re.FindStringSubmatch (c :: s) = re.FindStringSubmatch s := by
  simp [Regexp.FindStringSubmatch, h]

/-- A successful search returns the first match at some position of the input. -/
theorem find_eq_some (re : Regexp) (s : Str) (gs : List Str)
    (h : re.FindStringSubmatch s = some gs) :
    ∃ (p t : Str) (m : Match) (tl : List Match),
      s = p ++ t ∧ re.matchesAt t = m :: tl ∧ gs = m.text :: m.groups := by
  induction s with
  | nil =>
    cases hm : re.matchesAt [] with
    | nil => simp [Regexp.FindStringSubmatch, hm] at h
    | cons m tl =>
      simp only [Regexp.FindStringSubmatch, hm, Option.some.injEq] at h
      exact ⟨[], [], m, tl, rfl, hm, h.symm⟩
  | cons c s ih =>
    cases hm : re.matchesAt (c :: s) with
    | nil =>
      rw [find_skip re c s hm] at h
      obtain ⟨p, t, m, tl, h1, h2, h3⟩ := ih h
      exact ⟨c :: p, t, m, tl, by simp [h1], h2, h3⟩
    | cons m tl =>
      simp only [Regexp.FindStringSubmatch, hm, Option.some.injEq] at h
      exact ⟨[], c :: s, m, tl, rfl, hm, h.symm⟩

theorem stopsRun_dropWhile (cls : Char → Bool) (r : Str) : StopsRun cls (r.dropWhile cls) := by
  intro c t h
  have := List.head_dropWhile_not cls r (by rw [h]; simp)
  simpa [h] using this

/-- The first match of the pattern at a position is the greedy one: besides
having the shape of the grammar, its description runs up to the end of the
input or up to a line break. -/
theorem pattern_matchesAt_head (t : Str) (m : Match) (tl : List Match)
    (h : pattern.matchesAt t = m :: tl) :
    ∃ n o k d : Str,
      n ≠ [] ∧ (∀ c ∈ n, isDigit c = true) ∧
      o ≠ [] ∧ (∀ c ∈ o, notSlash c = true) ∧
      k ≠ [] ∧ (∀ c ∈ k, notSlash c = true) ∧
      d ≠ [] ∧ (∀ c ∈ d, anyChar c = true) ∧
      t = mergeSubject n o k d ++ m.rest ∧
      m.text = mergeSubject n o k d ∧ m.groups = [n, k, d] ∧ StopsRun anyChar m.rest := by
  obtain ⟨n, o, k, d, hn, hnd, ho, hos, hk, hks, hd, hdl, ht, htext, hg⟩ :=
    mem_pattern_matchesAt t m (by rw [h]; exact List.mem_cons_self _ _)
  refine ⟨n, o, k, d, hn, hnd, ho, hos, hk, hks, hd, hdl, ht, htext, hg, ?_⟩
  have hsplit : t = mergeSubject n o k (d ++ m.rest.takeWhile anyChar) ++
      m.rest.dropWhile anyChar := by
    conv_lhs => rw [ht, ← List.takeWhile_append_dropWhile anyChar m.rest]
    simp [mergeSubject]
  obtain ⟨tl', htl'⟩ := pattern_matchesAt n o k (d ++ m.rest.takeWhile anyChar)
    (m.rest.dropWhile anyChar) hn hnd ho hos hk hks (by simp [hd])
    (by
      intro c hc
      rcases List.mem_append.1 hc with hc | hc
      · exact hdl c hc
      · exact (List.mem_takeWhile_imp hc))
    (stopsRun_dropWhile _ _)
  rw [← hsplit, h] at htl'
  have hm := (List.cons.inj htl').1
  have h2 : m.rest = m.rest.dropWhile anyChar := congrArg Match.rest hm
  rw [h2]
  exact stopsRun_dropWhile _ _

/-- The opening text does not overlap itself: where it stands right after
a non-empty text `q`, it cannot also start at the front of `q` unless `q`
itself starts with it. -/
theorem mergePrefix_no_overlap (q X r : Str) (hq : q ≠ [])
    (h : q ++ (mergePrefix ++ X) = mergePrefix ++ r) : mergePrefix <+: q := by
  rcases List.append_eq_append_iff.1 h with ⟨a, ha, hb⟩ | ⟨c, hc, _⟩
  · cases a with
    | nil => exact ⟨[], by simpa using ha⟩
    | cons x a =>
      exfalso
      cases q with
      | nil => exact hq rfl
      | cons y q =>
        have hx : x = 'M' := by
          have := congrArg List.head? hb
          simpa [mergePrefix] using this.symm
        subst hx
        have htail : "erge pull request #".toList = q ++ 'M' :: a := by
          have := congrArg List.tail ha
          simpa [mergePrefix] using this
        have hmem : 'M' ∈ "erge pull request #".toList := by
          rw [htail]; simp
        revert hmem
        decide
  · exact ⟨c, hc.symm⟩

theorem pattern_matchesAt_eq_nil (t : Str) (h : ∀ r, t ≠ mergePrefix ++ r) :
    pattern.matchesAt t = [] := by
  apply matchesAt_cat_lit_eq_nil
  cases hs : stripLit "Merge pull request #".toList t with
  | none => rfl
  | some r => exact absurd ((stripLit_eq_some_iff _ _ _).1 hs) (h r)

/-- The leftmost search finds the merge subject behind any text that does
not contain the opening text. -/
theorem pattern_find_complete (p n o k d rest : Str)
    (hp : ¬ mergePrefix <:+: p)
    (hn : n ≠ []) (hnd : ∀ c ∈ n, isDigit c = true)
    (ho : o ≠ []) (hos : ∀ c ∈ o, notSlash c = true)
    (hk : k ≠ []) (hks : ∀ c ∈ k, notSlash c = true)
    (hd : d ≠ []) (hdl : ∀ c ∈ d, anyChar c = true) (hrest : StopsRun anyChar rest) :
    pattern.FindStringSubmatch (p ++ (mergeSubject n o k d ++ rest)) =
      some [mergeSubject n o k d, n, k, d] := by
  induction p with
  | nil =>
    obtain ⟨tl, htl⟩ := pattern_matchesAt n o k d rest hn hnd ho hos hk hks hd hdl hrest
    rw [List.nil_append, find_of_matchesAt _ _ _ _ htl]
  | cons c p ih =>
    have hp' : ¬ mergePrefix <:+: p := fun h => hp (h.trans (List.infix_cons (List.infix_refl _)))
    rw [List.cons_append, find_skip, ih hp']
    apply pattern_matchesAt_eq_nil
    intro r hr
    have hX : mergeSubject n o k d ++ rest = mergePrefix ++
        (n ++ " from ".toList ++ o ++ "/".toList ++ k ++ "/".toList ++ d ++ rest) := by
      simp [mergeSubject]
    rw [← List.cons_append, hX] at hr
    exact hp (mergePrefix_no_overlap (c :: p) _ r (by simp) hr).isInfix

/-! ## Lemmas on the subject -/

theorem IndexByte_of_not_mem (s : Str) (c : Char) (h : c ∉ s) : IndexByte s c = -1 := by
  induction s with
  | nil => rfl
  | cons a s ih =>
    have ha : a ≠ c := fun e => h (e ▸ List.mem_cons_self _ _)
    have hs : c ∉ s := fun e => h (List.mem_cons_of_mem _ e)
    simp [IndexByte, ha, ih hs]

theorem IndexByte_append (s b : Str) (c : Char) (h : c ∉ s) :
    IndexByte (s ++ c :: b) c = s.length := by
  induction s with
  | nil => simp [IndexByte]
  | cons a s ih =>
    have ha : a ≠ c := fun e => h (e ▸ List.mem_cons_self _ _)
    have hs : c ∉ s := fun e => h (List.mem_cons_of_mem _ e)
    have hnn : ¬ ((s.length : Int) < 0) := by omega
    simp [IndexByte, ha, ih hs, hnn]

theorem subject_of_not_mem (s : Str) (h : '\n' ∉ s) : subject s = s := by
  simp [subject, IndexByte_of_not_mem s _ h]

theorem subject_append (s b : Str) (hs : s ≠ []) (h : '\n' ∉ s) :
    subject (s ++ '\n' :: b) = s := by
  have hlen : 0 < s.length := List.length_pos.2 hs
  have hpos : (0 : Int) < (s.length : Int) := by exact_mod_cast hlen
  simp [subject, IndexByte_append s b _ h, hpos]

theorem subject_cons_newline (b : Str) : subject ('\n' :: b) = '\n' :: b := by
  simp [subject, IndexByte]

/-- A message that does not start with a line break has its first line as
subject. -/
theorem subject_eq_takeWhile (m : Str) (h : m.head? ≠ some '\n') :
    subject m = m.takeWhile (fun c => decide (c ≠ '\n')) := by
  have hsplit := List.takeWhile_append_dropWhile (fun c => decide (c ≠ '\n')) m
  have hnot : '\n' ∉ m.takeWhile (fun c => decide (c ≠ '\n')) := by
    intro hmem
    simpa using List.mem_takeWhile_imp hmem
  cases hd : m.dropWhile (fun c => decide (c ≠ '\n')) with
  | nil =>
    rw [hd, List.append_nil] at hsplit
    rw [hsplit]
    rw [hsplit] at hnot
    exact subject_of_not_mem m hnot
  | cons x b =>
    have hx : x = '\n' := by
      have := stopsRun_dropWhile (fun c => decide (c ≠ '\n')) m x b hd
      simpa using this
    subst hx
    have hne : m.takeWhile (fun c => decide (c ≠ '\n')) ≠ [] := by
      intro he
      rw [he, hd, List.nil_append] at hsplit
      rw [← hsplit] at h
      simp at h
    rw [hd] at hsplit
    conv_lhs => rw [← hsplit]
    exact subject_append _ b hne hnot

/-! ## Lemmas on the classification -/

theorem notSlash_of_not_mem (o : Str) (h : '/' ∉ o) : ∀ c ∈ o, notSlash c = true := by
  intro c hc
  simp only [notSlash, decide_eq_true_eq]
  rintro rfl
  exact h hc

theorem anyChar_of_not_mem (d : Str) (h : '\n' ∉ d) : ∀ c ∈ d, anyChar c = true := by
  intro c hc
  simp only [anyChar, decide_eq_true_eq]
  rintro rfl
  exact h hc

theorem not_mem_of_notSlash (o : Str) (h : ∀ c ∈ o, notSlash c = true) : '/' ∉ o := by
  intro hc
  have := h _ hc
  revert this
  decide

theorem not_mem_of_anyChar (d : Str) (h : ∀ c ∈ d, anyChar c = true) : '\n' ∉ d := by
  intro hc
  have := h _ hc
  revert this
  decide

/-- What a merge commit is classified as, when the leftmost search finds
the pattern in its subject. -/
theorem classify_of_find (parents : Nat) (s w n k d : Str) (hpar : 2 ≤ parents)
    (h : pattern.FindStringSubmatch s = some [w, n, k, d]) :
    classify parents s = some (.NamedChange k d n) := by
  have : parents > 1 := hpar
  simp [classify, this, h]

/-- The shape of the subject of a merge commit for which a record is
emitted: the record is a named change, its fields are those of a merge
subject standing somewhere in the subject, and the description runs up to
the end of the subject or up to a line break. -/
theorem classify_merge_eq_some (parents : Nat) (s : Str) (r : ChangeRecord)
    (hpar : 2 ≤ parents) (h : classify parents s = some r) :
    ∃ p n o k d rest : Str,
      n ≠ [] ∧ (∀ c ∈ n, isDigit c = true) ∧
      o ≠ [] ∧ '/' ∉ o ∧ k ≠ [] ∧ '/' ∉ k ∧ d ≠ [] ∧ '\n' ∉ d ∧
      s = p ++ (mergeSubject n o k d ++ rest) ∧ StopsRun anyChar rest ∧
      r = .NamedChange k d n := by
  have hp : parents > 1 := hpar
  cases hf : pattern.FindStringSubmatch s with
  | none => simp [classify, hp, hf] at h
  | some gs =>
    obtain ⟨p, t, m, tl, hs, hm, hgs⟩ := find_eq_some pattern s gs hf
    obtain ⟨n, o, k, d, hn, hnd, ho, hos, hk, hks, hd, hdl, ht, htext, hg, hstop⟩ :=
      pattern_matchesAt_head t m tl hm
    rw [hg] at hgs
    subst hgs
    simp only [classify, hp, if_true, hf, Option.some.injEq] at h
    refine ⟨p, n, o, k, d, m.rest, hn, hnd, ho, not_mem_of_notSlash o hos, hk,
      not_mem_of_notSlash k hks, hd, not_mem_of_anyChar d hdl, ?_, hstop, h.symm⟩
    rw [hs, ht]

theorem matchesGrammar_of_classify (parents : Nat) (s : Str) (r : ChangeRecord)
    (hpar : 2 ≤ parents) (h : classify parents s = some r) : MatchesGrammar s := by
  obtain ⟨p, n, o, k, d, rest, hn, hnd, ho, hos, hk, hks, hd, _, hs, _, _⟩ :=
    classify_merge_eq_some parents s r hpar h
  refine ⟨p, n, o, k, d ++ rest, hn, hnd, ho, hos, hk, hks, by simp [hd], ?_⟩
  rw [hs]
  simp [mergeSubject]

theorem classify_eq_none_of_not_matchesGrammar (parents : Nat) (s : Str) (hpar : 2 ≤ parents)
    (h : ¬ MatchesGrammar s) : classify parents s = none := by
  cases hc : classify parents s with
  | none => rfl
  | some r => exact absurd (matchesGrammar_of_classify parents s r hpar hc) h

theorem not_matchesGrammar_of_no_occurrence (s : Str) (h : ¬ mergePrefix <:+: s) :
    ¬ MatchesGrammar s := by
  rintro ⟨p, n, o, k, d, _, _, _, _, _, _, _, hs⟩
  apply h
  refine ⟨p, n ++ " from ".toList ++ o ++ "/".toList ++ k ++ "/".toList ++ d, ?_⟩
  rw [hs]
  simp [mergeSubject]

/-- The subject of a message whose first line is the non-empty, one-line
text `X`. -/
theorem subject_of_first_line (m X : Str) (hX : X ≠ []) (hl : '\n' ∉ X)
    (hm : m = X ∨ ∃ body, m = X ++ '\n' :: body) : subject m = X := by
  rcases hm with rfl | ⟨body, rfl⟩
  · exact subject_of_not_mem _ hl
  · exact subject_append X body hX hl

/-- A merge commit whose first line is a merge subject behind a text free
of the opening text is classified by the fields of the merge subject. -/
theorem classifyCommit_merge (c : object.Commit) (p n o k d : Str)
    (hp : ¬ mergePrefix <:+: p) (hpl : '\n' ∉ p)
    (hn : n ≠ []) (hnd : ∀ x ∈ n, isDigit x = true)
    (ho : o ≠ []) (hos : '/' ∉ o) (hol : '\n' ∉ o)
    (hk : k ≠ []) (hks : '/' ∉ k) (hkl : '\n' ∉ k)
    (hd : d ≠ []) (hdl : '\n' ∉ d)
    (hpar : 2 ≤ c.ParentHashes.length)
    (hmsg : c.Message = p ++ mergeSubject n o k d ∨
      ∃ body, c.Message = (p ++ mergeSubject n o k d) ++ '\n' :: body) :
    classifyCommit c = some (.NamedChange k d n) := by
  have hnl : '\n' ∉ n := by
    intro hc
    have := hnd _ hc
    revert this
    decide
  have hline : '\n' ∉ p ++ mergeSubject n o k d := by
    simp only [mergeSubject, mergePrefix, List.mem_append, not_or]
    refine ⟨hpl, ⟨⟨⟨⟨⟨⟨by decide, hnl⟩, by decide⟩, hol⟩, by decide⟩, hkl⟩, by decide⟩, hdl⟩
  have hne : p ++ mergeSubject n o k d ≠ [] := by
    simp [mergeSubject, mergePrefix]
  rw [classifyCommit, subject_of_first_line c.Message _ hne hline hmsg]
  apply classify_of_find _ _ (mergeSubject n o k d) n k d hpar
  have := pattern_find_complete p n o k d [] hp hn hnd ho (notSlash_of_not_mem o hos) hk
    (notSlash_of_not_mem k hks) hd (anyChar_of_not_mem d hdl) (stopsRun_nil _)
  simpa using this

/-! ## Lemmas on the loops -/

theorem ForEach_eq {σ : Type} (cb : σ → object.Commit → σ) (cs : List object.Commit)
    (e : IterEnd) (st : σ) : ForEach cb cs e st = (cs.foldl cb st, e.error) := by
  induction cs generalizing st with
  | nil => cases e <;> rfl
  | cons c cs ih => simp [ForEach, ih]

theorem foldl_printChange (productionCommits : HashMap) (walk : List object.Commit)
    (stdout : List Str) :
    walk.foldl (printChange productionCommits) stdout =
      stdout ++ (records productionCommits walk).map ChangeRecord.render := by
  induction walk generalizing stdout with
  | nil => simp [records]
  | cons c cs ih =>
    rw [List.foldl_cons, ih]
    by_cases hf : productionCommits.found c.Hash = true
    · simp [printChange, records, hf]
    · cases hc : classifyCommit c with
      | none => simp [printChange, records, hf, hc]
      | some r => simp [printChange, records, hf, hc]

theorem found_foldl_recordProduction (baseline : List object.Commit) (m : HashMap)
    (h : plumbing.Hash) :
    (baseline.foldl recordProduction m).found h =
      (m.found h || decide (h ∈ baseline.map (fun c => c.Hash))) := by
  induction baseline generalizing m with
  | nil => simp
  | cons c cs ih =>
    rw [List.foldl_cons, ih]
    by_cases hh : h = c.Hash
    · simp [recordProduction, HashMap.set, HashMap.found, hh]
    · simp [recordProduction, HashMap.set, HashMap.found, hh]

/-- The production map after the first loop holds exactly the hashes of the
commits enumerated from the production branch. -/
theorem found_production (baseline : List object.Commit) (h : plumbing.Hash) :
    (baseline.foldl recordProduction HashMap.make).found h =
      decide (h ∈ baseline.map (fun c => c.Hash)) := by
  rw [found_foldl_recordProduction]
  simp [HashMap.make, HashMap.found]

theorem records_production (baseline walk : List object.Commit) :
    records (baseline.foldl recordProduction HashMap.make) walk =
      (walk.filter (fun c => decide (c.Hash ∉ baseline.map (fun b => b.Hash)))).filterMap
        classifyCommit := by
  unfold records
  congr 1
  apply List.filter_congr
  intro c _
  rw [found_production]
  by_cases h : c.Hash ∈ baseline.map (fun b => b.Hash)
  · rw [decide_eq_true h, decide_eq_false (not_not_intro h)]; rfl
  · rw [decide_eq_false h, decide_eq_true h]; rfl

/-- The run of the two loops, for a production enumeration that ends
normally: the lines printed are those of the records of the walked commits
outside the production enumeration, and the run ends according to the way the
walk ends. -/
theorem generateChangelog_ok (baseline walk : List object.Commit) (e : IterEnd) :
    generateChangelog (.ok ⟨baseline, .EOF⟩) (.ok ⟨walk, e⟩) =
      ⟨((walk.filter (fun c => decide (c.Hash ∉ baseline.map (fun b => b.Hash)))).filterMap
          classifyCommit).map ChangeRecord.render,
        match e with
        | .EOF => .ok
        | .failure err => .fatal ("failed to iterate commits: ".toList ++ err)⟩ := by
  simp only [generateChangelog, ForEach_eq, IterEnd.error, foldl_printChange, List.nil_append,
    records_production]
  cases e <;> rfl

/-! ## Lemmas on reference resolution -/

theorem getRef_local (r : Storer) (name : Str) (h : plumbing.Hash)
    (hl : r (plumbing.NewBranchReferenceName name) = some h) :
    getRef r name = .ok (⟨plumbing.NewBranchReferenceName name, h⟩, r) := by
  simp only [getRef, Storer.Reference, hl]

theorem getRef_remote (r : Storer) (name : Str) (h : plumbing.Hash)
    (hl : r (plumbing.NewBranchReferenceName name) = none)
    (hr : r (plumbing.NewRemoteReferenceName "origin".toList name) = some h) :
    getRef r name = .ok (⟨plumbing.NewBranchReferenceName name, h⟩,
      r.SetReference ⟨plumbing.NewBranchReferenceName name, h⟩) := by
  simp only [getRef, Storer.Reference, Storer.SetReference, plumbing.NewHashReference, hl, hr,
    if_true]

theorem getRef_neither (r : Storer) (name : Str)
    (hl : r (plumbing.NewBranchReferenceName name) = none)
    (hr : r (plumbing.NewRemoteReferenceName "origin".toList name) = none) :
    getRef r name = .error ("failed to get main remote branch reference: ".toList ++
      "reference not found".toList) := by
  simp only [getRef, Storer.Reference, hl, hr]

set_option maxRecDepth 16000

/-! ## The changelog -/

/-- C1: for every enumeration of the production branch and every walk of
the main branch that both end normally, the lines printed are exactly, in the
order of the walk, the renderings of the records obtained by classifying each
walked commit whose hash is not the hash of an enumerated production commit;
the walked commits whose hash is one of those are skipped, nothing else is
printed, and the run ends normally. -/
theorem changelog_of_unreleased_commits (baseline walk : List object.Commit) :
    generateChangelog (.ok ⟨baseline, .EOF⟩) (.ok ⟨walk, .EOF⟩) =
      ⟨((walk.filter (fun c => decide (c.Hash ∉ baseline.map (fun b => b.Hash)))).filterMap
          classifyCommit).map ChangeRecord.render, .ok⟩ :=
  generateChangelog_ok baseline walk .EOF

/-- C1 at the production commits `A`, `B` and the walk `A`, `B`, `D`, where
`D` merges two branches under the message
`Merge pull request #1 from x/feature/y`: the one line printed is that of
the named change of kind `feature`, description `y` and request number `1`. -/
theorem changelog_of_unreleased_commits_witness :
    generateChangelog (.ok ⟨[⟨2, "B".toList, [1]⟩, ⟨1, "A".toList, []⟩], .EOF⟩)
      (.ok ⟨[⟨1, "A".toList, []⟩, ⟨2, "B".toList, [1]⟩,
        ⟨4, "Merge pull request #1 from x/feature/y".toList, [2, 3]⟩], .EOF⟩) =
      ⟨[(ChangeRecord.NamedChange "feature".toList "y".toList "1".toList).render], .ok⟩ :=
  (changelog_of_unreleased_commits _ _).trans (by decide)

/-- C8, as the code has it: when the walk of the main branch fails after
some commits, the run ends in a fatal error, and the lines printed are
exactly those of the records of the commits walked before the failure that
are outside the production enumeration, in the order of the walk; a failure
before the walk starts (of either call of `r.Log`, or of the production
enumeration) ends the run in a fatal error with nothing printed. -/
theorem changelog_on_failure (baseline walk : List object.Commit) (err : Str)
    (mainLog : Except Str CommitIter) :
    generateChangelog (.ok ⟨baseline, .EOF⟩) (.ok ⟨walk, .failure err⟩) =
      ⟨((walk.filter (fun c => decide (c.Hash ∉ baseline.map (fun b => b.Hash)))).filterMap
          classifyCommit).map ChangeRecord.render,
        .fatal ("failed to iterate commits: ".toList ++ err)⟩ ∧
    generateChangelog (.ok ⟨baseline, .EOF⟩) (.error err) =
      ⟨[], .fatal ("failed to get commits: ".toList ++ err)⟩ ∧
    generateChangelog (.ok ⟨baseline, .failure err⟩) mainLog =
      ⟨[], .fatal ("Failed to iterate through production commits: ".toList ++ err)⟩ ∧
    generateChangelog (.error err) mainLog =
      ⟨[], .fatal ("Failed to get production branch commits: ".toList ++ err)⟩ := by
  refine ⟨generateChangelog_ok baseline walk (.failure err), ?_, ?_, ?_⟩
  · simp only [generateChangelog, ForEach_eq, IterEnd.error]
  · simp only [generateChangelog, ForEach_eq, IterEnd.error]
  · simp only [generateChangelog]

/-- C8 fails as stated: a walk that yields the one-parent commit
`Update README` and then fails leaves the line `+ Update README` printed,
although the run ends in a fatal error. -/
theorem partial_changelog_on_failure :
    (generateChangelog (.ok ⟨[], .EOF⟩)
      (.ok ⟨[⟨3, "Update README".toList, [1]⟩], .failure "object not found".toList⟩)).exit =
        .fatal "failed to iterate commits: object not found".toList ∧
    (generateChangelog (.ok ⟨[], .EOF⟩)
      (.ok ⟨[⟨3, "Update README".toList, [1]⟩], .failure "object not found".toList⟩)).stdout =
        ["+ Update README\n".toList] ∧
    (generateChangelog (.ok ⟨[], .EOF⟩)
      (.ok ⟨[⟨3, "Update README".toList, [1]⟩], .failure "object not found".toList⟩)).stdout ≠
        [] := by
  decide

/-! ## The subject -/

/-- C2 at the message made of a line break followed by `Fix bug`: the index
of the first line break is `0`, the test `firstNewLine > 0` fails, and the
subject is the whole message, line break included, not the empty text that
stands before the first line break. -/
theorem subject_of_leading_line_break :
    IndexByte "\nFix bug".toList '\n' = 0 ∧
    subject "\nFix bug".toList = "\nFix bug".toList ∧
    '\n' ∈ subject "\nFix bug".toList ∧
    "\nFix bug".toList.takeWhile (fun c => decide (c ≠ '\n')) = [] ∧
    subject "\nFix bug".toList ≠ "\nFix bug".toList.takeWhile (fun c => decide (c ≠ '\n')) := by
  decide

/-! ## The classification -/

/-- C3: a commit with two or more parents whose first line is
`Merge pull request #<n> from <o>/<k>/<d>`, for non-empty digits `n`,
non-empty `o` and `k` free of slashes and non-empty `d`, none of them
holding a line break, is classified as the one record `NamedChange` with
kind `k`, description `d` and request number `n`, printed as the line
`k d (#n)`. -/
theorem merge_subject_named_change (c : object.Commit) (n o k d : Str)
    (hn : n ≠ []) (hnd : ∀ x ∈ n, isDigit x = true)
    (ho : o ≠ []) (hos : '/' ∉ o) (hol : '\n' ∉ o)
    (hk : k ≠ []) (hks : '/' ∉ k) (hkl : '\n' ∉ k)
    (hd : d ≠ []) (hdl : '\n' ∉ d)
    (hpar : 2 ≤ c.ParentHashes.length)
    (hmsg : c.Message = mergeSubject n o k d ∨
      ∃ body, c.Message = mergeSubject n o k d ++ '\n' :: body) :
    classifyCommit c = some (.NamedChange k d n) ∧
    (ChangeRecord.NamedChange k d n).render =
      k ++ " ".toList ++ d ++ " (#".toList ++ n ++ ")\n".toList :=
  ⟨classifyCommit_merge c [] n o k d (by decide) (by simp) hn hnd ho hos hol hk hks hkl hd hdl
    hpar (by simpa using hmsg), rfl⟩

/-- C3 at the subjects
`Merge pull request #42 from org/feature/add-retry-logic` and
`Merge pull request #7 from org/fix/null-pointer in handler`. -/
theorem merge_subject_named_change_witness :
    classifyCommit ⟨9, "Merge pull request #42 from org/feature/add-retry-logic".toList, [7, 8]⟩ =
      some (.NamedChange "feature".toList "add-retry-logic".toList "42".toList) ∧
    classifyCommit
      ⟨9, "Merge pull request #7 from org/fix/null-pointer in handler\n\nbody".toList, [7, 8]⟩ =
      some (.NamedChange "fix".toList "null-pointer in handler".toList "7".toList) :=
  ⟨(merge_subject_named_change
      ⟨9, "Merge pull request #42 from org/feature/add-retry-logic".toList, [7, 8]⟩
      "42".toList "org".toList "feature".toList "add-retry-logic".toList
      (by decide) (by decide) (by decide) (by decide) (by decide) (by decide) (by decide)
      (by decide) (by decide) (by decide) (by decide) (Or.inl (by decide))).1,
   (merge_subject_named_change
      ⟨9, "Merge pull request #7 from org/fix/null-pointer in handler\n\nbody".toList, [7, 8]⟩
      "7".toList "org".toList "fix".toList "null-pointer in handler".toList
      (by decide) (by decide) (by decide) (by decide) (by decide) (by decide) (by decide)
      (by decide) (by decide) (by decide) (by decide)
      (Or.inr ⟨"\nbody".toList, by decide⟩)).1⟩

/-- C10: the pattern is searched for anywhere in the subject. For a text
`p` without line break and without the opening text
`Merge pull request #`, a commit with two or more parents whose first line
is `p` followed by `Merge pull request #<n> from <o>/<k>/<d>` is classified
as `NamedChange` with kind `k`, description `d` and request number `n`: the
text `p` is in none of the fields. -/
theorem merge_subject_found_behind_text (c : object.Commit) (p n o k d : Str)
    (hp : ¬ mergePrefix <:+: p) (hpl : '\n' ∉ p)
    (hn : n ≠ []) (hnd : ∀ x ∈ n, isDigit x = true)
    (ho : o ≠ []) (hos : '/' ∉ o) (hol : '\n' ∉ o)
    (hk : k ≠ []) (hks : '/' ∉ k) (hkl : '\n' ∉ k)
    (hd : d ≠ []) (hdl : '\n' ∉ d)
    (hpar : 2 ≤ c.ParentHashes.length)
    (hmsg : c.Message = p ++ mergeSubject n o k d ∨
      ∃ body, c.Message = (p ++ mergeSubject n o k d) ++ '\n' :: body) :
    classifyCommit c = some (.NamedChange k d n) :=
  classifyCommit_merge c p n o k d hp hpl hn hnd ho hos hol hk hks hkl hd hdl hpar hmsg

/-- C10 at the subject `Revert Merge pull request #5 from a/fix/b`. -/
theorem merge_subject_found_behind_text_witness :
    classifyCommit ⟨9, "Revert Merge pull request #5 from a/fix/b".toList, [7, 8]⟩ =
      some (.NamedChange "fix".toList "b".toList "5".toList) :=
  merge_subject_found_behind_text
    ⟨9, "Revert Merge pull request #5 from a/fix/b".toList, [7, 8]⟩
    "Revert ".toList "5".toList "a".toList "fix".toList "b".toList
    (by decide) (by decide) (by decide) (by decide) (by decide) (by decide) (by decide)
    (by decide) (by decide) (by decide) (by decide) (by decide) (by decide)
    (Or.inl (by decide))

/-- C4: a commit with at most one parent is always classified as the one
record `DirectChange` of its subject, printed as the line `+ <subject>`,
whatever the subject is; it is never classified as a `NamedChange`. -/
theorem direct_change_of_at_most_one_parent (c : object.Commit)
    (hpar : c.ParentHashes.length ≤ 1) :
    classifyCommit c = some (.DirectChange (subject c.Message)) ∧
    (ChangeRecord.DirectChange (subject c.Message)).render =
      "+ ".toList ++ subject c.Message ++ "\n".toList ∧
    ∀ k d n, classifyCommit c ≠ some (.NamedChange k d n) := by
  have h : ¬ c.ParentHashes.length > 1 := by omega
  have hc : classifyCommit c = some (.DirectChange (subject c.Message)) := by
    simp [classifyCommit, classify, h]
  refine ⟨hc, rfl, ?_⟩
  intro k d n hk
  rw [hc] at hk
  cases hk

/-- C4 at the subject `Update README` with one parent, and at a subject of
the merge grammar with one parent and with none. -/
theorem direct_change_of_at_most_one_parent_witness :
    classifyCommit ⟨9, "Update README".toList, [8]⟩ =
      some (.DirectChange "Update README".toList) ∧
    classifyCommit ⟨9, "Merge pull request #1 from x/feature/y".toList, [8]⟩ =
      some (.DirectChange "Merge pull request #1 from x/feature/y".toList) ∧
    classifyCommit ⟨9, "Merge pull request #1 from x/feature/y".toList, []⟩ =
      some (.DirectChange "Merge pull request #1 from x/feature/y".toList) :=
  ⟨(direct_change_of_at_most_one_parent ⟨9, "Update README".toList, [8]⟩ (by decide)).1,
   (direct_change_of_at_most_one_parent
      ⟨9, "Merge pull request #1 from x/feature/y".toList, [8]⟩ (by decide)).1,
   (direct_change_of_at_most_one_parent
      ⟨9, "Merge pull request #1 from x/feature/y".toList, []⟩ (by decide)).1⟩

/-- C5: for a commit with two or more parents, no record is emitted when
the subject does not match the grammar, in particular when it does not
contain the text `Merge pull request #`; the classification is a total
function with the normal outcome `none`, the loop body leaves the output as
it is, and the run is the run of the walk without that commit. -/
theorem unmatched_merge_emits_nothing (c : object.Commit)
    (hpar : 2 ≤ c.ParentHashes.length) :
    (¬ MatchesGrammar (subject c.Message) → classifyCommit c = none) ∧
    (¬ mergePrefix <:+: subject c.Message → classifyCommit c = none) ∧
    (classifyCommit c = none →
      (∀ (productionCommits : HashMap) (stdout : List Str),
        printChange productionCommits stdout c = stdout) ∧
      ∀ (baseline pre post : List object.Commit) (e : IterEnd),
        generateChangelog (.ok ⟨baseline, .EOF⟩) (.ok ⟨pre ++ c :: post, e⟩) =
          generateChangelog (.ok ⟨baseline, .EOF⟩) (.ok ⟨pre ++ post, e⟩)) := by
  refine ⟨fun h => classify_eq_none_of_not_matchesGrammar _ _ hpar h,
    fun h => classify_eq_none_of_not_matchesGrammar _ _ hpar
      (not_matchesGrammar_of_no_occurrence _ h), ?_⟩
  intro hnone
  constructor
  · intro productionCommits stdout
    by_cases hf : productionCommits.found c.Hash = true
    · simp [printChange, hf]
    · simp [printChange, hf, hnone]
  · intro baseline pre post e
    rw [generateChangelog_ok, generateChangelog_ok]
    simp only [List.filter_append, List.filter_cons, List.filterMap_append]
    split <;> simp [hnone]

/-- C5 at the subject `Merge branch 'hotfix' into main` with two parents. -/
theorem unmatched_merge_emits_nothing_witness :
    classifyCommit ⟨9, "Merge branch 'hotfix' into main".toList, [7, 8]⟩ = none ∧
    generateChangelog (.ok ⟨[], .EOF⟩)
      (.ok ⟨[⟨9, "Merge branch 'hotfix' into main".toList, [7, 8]⟩,
        ⟨10, "Update README".toList, [9]⟩], .EOF⟩) =
      generateChangelog (.ok ⟨[], .EOF⟩) (.ok ⟨[⟨10, "Update README".toList, [9]⟩], .EOF⟩) :=
  ⟨(unmatched_merge_emits_nothing ⟨9, "Merge branch 'hotfix' into main".toList, [7, 8]⟩
      (by decide)).2.1 (by decide),
   ((unmatched_merge_emits_nothing ⟨9, "Merge branch 'hotfix' into main".toList, [7, 8]⟩
      (by decide)).2.2 (by decide)).2 [] [] [⟨10, "Update README".toList, [9]⟩] .EOF⟩

/-- The fields of an emitted named change, for a commit with two or more
parents whose message does not start with a line break: the request number
is non-empty and made of digits, the kind is non-empty and free of slashes,
the description is non-empty, free of line breaks, and ends the subject. -/
theorem named_change_wellformed_of_line (c : object.Commit) (k d n : Str)
    (hpar : 2 ≤ c.ParentHashes.length) (hhead : c.Message.head? ≠ some '\n')
    (h : classifyCommit c = some (.NamedChange k d n)) :
    n ≠ [] ∧ (∀ x ∈ n, isDigit x = true) ∧ k ≠ [] ∧ '/' ∉ k ∧ d ≠ [] ∧ '\n' ∉ d ∧
    ∃ p o : Str, o ≠ [] ∧ '/' ∉ o ∧ subject c.Message = p ++ mergeSubject n o k d := by
  obtain ⟨p, n', o, k', d', rest, hn, hnd, ho, hos, hk, hks, hd, hdl, hs, hstop, hr⟩ :=
    classify_merge_eq_some _ _ _ hpar h
  cases hr
  refine ⟨hn, hnd, hk, hks, hd, hdl, p, o, ho, hos, ?_⟩
  have hline : '\n' ∉ subject c.Message := by
    rw [subject_eq_takeWhile _ hhead]
    intro hmem
    simpa using List.mem_takeWhile_imp hmem
  cases rest with
  | nil => simpa using hs
  | cons x t =>
    exfalso
    have hx : x = '\n' := by
      have := hstop x t rfl
      simpa [anyChar] using this
    subst hx
    apply hline
    rw [hs]
    simp

/-- C6 at the two-parent commit whose message is a line break followed by
the lines `Merge pull request #1 from a`, `x/b/c` and `more`: the subject is
the whole message, the record emitted has kind `b`, description `c` and
request number `1`, and the subject is not a text that ends with
`Merge pull request #1 from <o>/b/c`, whatever `o` is. -/
theorem named_change_of_leading_line_break :
    subject "\nMerge pull request #1 from a\nx/b/c\nmore".toList =
      "\nMerge pull request #1 from a\nx/b/c\nmore".toList ∧
    classifyCommit ⟨9, "\nMerge pull request #1 from a\nx/b/c\nmore".toList, [7, 8]⟩ =
      some (.NamedChange "b".toList "c".toList "1".toList) ∧
    ¬ ∃ p o : Str, subject "\nMerge pull request #1 from a\nx/b/c\nmore".toList =
      p ++ mergeSubject "1".toList o "b".toList "c".toList := by
  refine ⟨by decide, by decide, ?_⟩
  rintro ⟨p, o, h⟩
  have h1 : subject "\nMerge pull request #1 from a\nx/b/c\nmore".toList =
      "\nMerge pull request #1 from a\nx/b/c\nmor".toList ++ ['e'] := by decide
  have h2 : p ++ mergeSubject "1".toList o "b".toList "c".toList =
      (p ++ mergePrefix ++ "1".toList ++ " from ".toList ++ o ++ "/b/".toList) ++ ['c'] := by
    simp [mergeSubject]
  rw [h1, h2] at h
  have := congrArg List.getLast? h
  rw [List.getLast?_concat, List.getLast?_concat] at this
  revert this
  decide

/-! ## Reference resolution -/

/-- C7: `getRef` returns the commit of the local branch reference
`refs/heads/<name>` when that reference exists, whatever the remote-tracking
reference is, and leaves the store as it is; otherwise it returns the commit of
the remote-tracking reference `refs/remotes/origin/<name>` when that exists,
and binds the local name to it; and it ends in the fatal error exactly when
neither reference exists. -/
theorem getRef_resolution (r : Storer) (name : Str) :
    (∀ h, r (plumbing.NewBranchReferenceName name) = some h →
      getRef r name = .ok (⟨plumbing.NewBranchReferenceName name, h⟩, r)) ∧
    (∀ h, r (plumbing.NewBranchReferenceName name) = none →
      r (plumbing.NewRemoteReferenceName "origin".toList name) = some h →
      getRef r name = .ok (⟨plumbing.NewBranchReferenceName name, h⟩,
        r.SetReference ⟨plumbing.NewBranchReferenceName name, h⟩)) ∧
    ((∃ msg, getRef r name = .error msg) ↔
      r (plumbing.NewBranchReferenceName name) = none ∧
      r (plumbing.NewRemoteReferenceName "origin".toList name) = none) := by
  refine ⟨fun h hl => getRef_local r name h hl, fun h hl hr => getRef_remote r name h hl hr, ?_⟩
  constructor
  · rintro ⟨msg, hmsg⟩
    cases hl : r (plumbing.NewBranchReferenceName name) with
    | some h => rw [getRef_local r name h hl] at hmsg; cases hmsg
    | none =>
      cases hr : r (plumbing.NewRemoteReferenceName "origin".toList name) with
      | some h => rw [getRef_remote r name h hl hr] at hmsg; cases hmsg
      | none => exact ⟨rfl, rfl⟩
  · rintro ⟨hl, hr⟩
    exact ⟨_, getRef_neither r name hl hr⟩

/-- C7 at a store with both references, at a store with the remote-tracking
reference alone, and at the empty store. -/
theorem getRef_resolution_witness :
    getRef storeBoth "production".toList =
      .ok (⟨"refs/heads/production".toList, 1⟩, storeBoth) ∧
    getRef storeRemote "production".toList =
      .ok (⟨"refs/heads/production".toList, 2⟩,
        storeRemote.SetReference ⟨"refs/heads/production".toList, 2⟩) ∧
    (∃ msg, getRef (fun _ => none) "production".toList = .error msg) :=
  ⟨(getRef_resolution storeBoth "production".toList).1 1 (by decide),
   (getRef_resolution storeRemote "production".toList).2.1 2 (by decide) (by decide),
   (getRef_resolution (fun _ => none) "production".toList).2.2.2 ⟨rfl, rfl⟩⟩

/-- C9: when `getRef` succeeds on a store, returning a reference and
leaving a store, the local branch reference `refs/heads/<name>` resolves in
the store left to the commit returned, and `getRef` on the store left
returns the same reference and leaves that store as it is. -/
theorem getRef_stable (r r' : Storer) (name : Str) (ref : plumbing.Reference)
    (h : getRef r name = .ok (ref, r')) :
    r' (plumbing.NewBranchReferenceName name) = some ref.Hash ∧
    r'.Reference (plumbing.NewBranchReferenceName name) =
      .ok ⟨plumbing.NewBranchReferenceName name, ref.Hash⟩ ∧
    getRef r' name = .ok (ref, r') := by
  have key : r' (plumbing.NewBranchReferenceName name) = some ref.Hash ∧
      ref.Name = plumbing.NewBranchReferenceName name := by
    cases hl : r (plumbing.NewBranchReferenceName name) with
    | some x =>
      rw [getRef_local r name x hl] at h
      cases h
      exact ⟨hl, rfl⟩
    | none =>
      cases hr : r (plumbing.NewRemoteReferenceName "origin".toList name) with
      | some x =>
        rw [getRef_remote r name x hl hr] at h
        cases h
        exact ⟨by simp [Storer.SetReference], rfl⟩
      | none =>
        rw [getRef_neither r name hl hr] at h
        cases h
  obtain ⟨h1, h2⟩ := key
  refine ⟨h1, by simp only [Storer.Reference, h1], ?_⟩
  rw [getRef_local r' name ref.Hash h1]
  cases ref
  cases h2
  rfl

/-- C9 at the store with only the remote-tracking branch
`origin/production`: the fallback binds the local name, and resolving again
returns the same commit and leaves the store as it is. -/
theorem getRef_stable_witness :
    (storeRemote.SetReference ⟨"refs/heads/production".toList, 2⟩)
      "refs/heads/production".toList = some 2 ∧
    getRef (storeRemote.SetReference ⟨"refs/heads/production".toList, 2⟩) "production".toList =
      .ok (⟨"refs/heads/production".toList, 2⟩,
        storeRemote.SetReference ⟨"refs/heads/production".toList, 2⟩) :=
  ⟨(getRef_stable storeRemote (storeRemote.SetReference ⟨"refs/heads/production".toList, 2⟩)
      "production".toList ⟨"refs/heads/production".toList, 2⟩
      (getRef_remote storeRemote "production".toList 2 (by decide) (by decide))).1,
   (getRef_stable storeRemote (storeRemote.SetReference ⟨"refs/heads/production".toList, 2⟩)
      "production".toList ⟨"refs/heads/production".toList, 2⟩
      (getRef_remote storeRemote "production".toList 2 (by decide) (by decide))).2.2⟩

end Anansi
